import Mathlib

/-!
Verification of the staged-IR front-end passes of this repository
(src/src/sugar.ts and src/src/compile/ir.ts): the auto-persist and
macro-expansion desugaring passes, the extern collector, the Proc/Prog
grouping step and the IR assembly.

The syntax tree, the type table and the two desugaring passes are embedded
from src/src/sugar.ts.  Helper modules that the repository's sugar.ts
imports but whose sources are not present (src/util.ts with `stack_lookup`,
src/visit.ts with the generic copying traversal, src/type_elaborate.ts with
`elaborate_subtree`, src/scope.ts, src/defuse.ts, src/lift.ts) are modelled
from the spec; each such definition carries a doc comment saying so.
-/

/-! ## Syntax tree

Modelled from the spec and from the use sites in src/src/sugar.ts (the
repository's ast.ts is not among the source files): every node carries the
stable integer identity assigned by the elaborator; the node kinds are the
ones the desugaring passes and the extern collector inspect (variable
reads, escapes, macro invocations, external references, calls) plus a
representative sample of purely structural kinds (literals, let-bindings,
quotations, functions) that the generic copying traversal just recurses
into.  `externRef` stands for the source's ExternNode (its tag cannot be
used as a Lean name here) with the declared `name` and the optional
`expansion` rename; `macrocall` stands for MacroCallNode with the invoked
name `mname`.  Call arguments are a mutually inductive list so that all
traversals are structurally recursive. -/

mutual

inductive SyntaxNode : Type where
  | num (id : Nat) (v : Int)
  | lookup (id : Nat) (ident : String)
  | letb (id : Nat) (ident : String) (e : SyntaxNode) (body : SyntaxNode)
  | quote (id : Nat) ( annotation : String) (e : SyntaxNode)
  | escape (id : Nat) (kind : String) (e : SyntaxNode) (count : Nat)
  | func (id : Nat) (params : List Nat) (body : SyntaxNode)
  | call (id : Nat) (f : SyntaxNode) (args : ArgList)
  | externRef (id : Nat) (name : String) (expansion : Option String)
  | macrocall (id : Nat) (mname : String)
  deriving DecidableEq

inductive ArgList : Type where
  | nil
  | cons (a : SyntaxNode) (rest : ArgList)
  deriving DecidableEq

end

/-! Node shapes: a syntax tree with the node identities erased, used to state
that a rewrite preserves or produces a given tree shape. -/

mutual

inductive Shape : Type where
  | num (v : Int)
  | lookup (ident : String)
  | letb (ident : String) (e : Shape) (body : Shape)
  | quote ( annotation : String) (e : Shape)
  | escape (kind : String) (e : Shape) (count : Nat)
  | func (params : List Nat) (body : Shape)
  | call (f : Shape) (args : ShapeList)
  | externRef (name : String) (expansion : Option String)
  | macrocall (mname : String)
  deriving DecidableEq

inductive ShapeList : Type where
  | nil
  | cons (a : Shape) (rest : ShapeList)
  deriving DecidableEq

end

mutual

/-- Erase the identities of a tree, keeping its shape. -/
def erase : SyntaxNode → Shape
  | .num _ v => .num v
  | .lookup _ ident => .lookup ident
  | .letb _ x e b => .letb x (erase e) (erase b)
  | .quote _ a e => .quote a (erase e)
  | .escape _ k e c => .escape k (erase e) c
  | .func _ ps b => .func ps (erase b)
  | .call _ f args => .call (erase f) (eraseArgs args)
  | .externRef _ n e => .externRef n e
  | .macrocall _ m => .macrocall m

def eraseArgs : ArgList → ShapeList
  | .nil => .nil
  | .cons a rest => .cons (erase a) (eraseArgs rest)

end

/-! ## Type table and stage environment (src/src/sugar.ts uses
`type_table[tree.id]` yielding a `[type, env]` pair; the env's `externs`
map and `stack` of scope frames are the two components the desugaring
passes read). -/

/-- Resolved types are opaque to every pass verified here; the repository's
type language (type_elaborate.ts) is not among the source files, so a type
is modelled as a bare code. -/
abbrev Ty := Nat

/-- The captured stage environment stored with each node identity: the set of
extern names in scope and the stack of scope frames, innermost (stage 0)
first, each frame listing the names it binds. -/
structure StageEnv : Type where
  externs : List String
  stack : List (List String)
  deriving DecidableEq

/-- The type table: node identity `i`'s resolved type and captured
environment sit at index `i`.  Intrinsics registered by the assembler have
no captured environment (the source stores `null` there). -/
abbrev TypeTable := List (Ty × Option StageEnv)

/-- Modelled from the spec: `stack_lookup` lives in src/util.ts, which is not
among the source files.  It searches the stage stack from the innermost
frame outward and yields the stage distance of the first frame binding the
name (0 = current stage), or nothing when no frame binds it. -/
def stack_lookup : List (List String) → String → Option Nat
  | [], _ => none
  | frame :: rest, ident =>
    if frame.contains ident then some 0
    else (stack_lookup rest ident).map (fun n => n + 1)

mutual

/-- Modelled from the spec: `elaborate_subtree` lives in
src/type_elaborate.ts, which is not among the source files.  Per the spec it
re-elaborates a freshly synthesized subtree in a captured environment,
assigning every node a fresh identity and appending, for each fresh
identity, a resolved type and the captured environment to the type table
(never touching existing entries).  Types being opaque here, the resolved
type is modelled as the code 0. -/
def elaborate_subtree : SyntaxNode → StageEnv → TypeTable → SyntaxNode × TypeTable
  | .num _ v, env, tt => (.num tt.length v, tt ++ [(0, some env)])
  | .lookup _ ident, env, tt => (.lookup tt.length ident, tt ++ [(0, some env)])
  | .letb _ x e b, env, tt =>
    let r1 := elaborate_subtree e env (tt ++ [(0, some env)])
    let r2 := elaborate_subtree b env r1.2
    (.letb tt.length x r1.1 r2.1, r2.2)
  | .quote _ a e, env, tt =>
    let r := elaborate_subtree e env (tt ++ [(0, some env)])
    (.quote tt.length a r.1, r.2)
  | .escape _ k e c, env, tt =>
    let r := elaborate_subtree e env (tt ++ [(0, some env)])
    (.escape tt.length k r.1 c, r.2)
  | .func _ ps b, env, tt =>
    let r := elaborate_subtree b env (tt ++ [(0, some env)])
    (.func tt.length ps r.1, r.2)
  | .call _ f args, env, tt =>
    let r1 := elaborate_subtree f env (tt ++ [(0, some env)])
    let r2 := elaborate_args args env r1.2
    (.call tt.length r1.1 r2.1, r2.2)
  | .externRef _ n e, env, tt => (.externRef tt.length n e, tt ++ [(0, some env)])
  | .macrocall _ m, env, tt => (.macrocall tt.length m, tt ++ [(0, some env)])

def elaborate_args : ArgList → StageEnv → TypeTable → ArgList × TypeTable
  | .nil, _, tt => (.nil, tt)
  | .cons a rest, env, tt =>
    let r1 := elaborate_subtree a env tt
    let r2 := elaborate_args rest env r1.2
    (.cons r1.1 r2.1, r2.2)

end

/-! ## Auto-persist desugaring (src/src/sugar.ts, `gen_desugar_cross_stage`
and `desugar_cross_stage`).

The source builds the pass as `fix(compose(gen_desugar_cross_stage(...),
gen_translate))`: the open-recursive layer handles lookup nodes and falls
back to the generic copying traversal of src/visit.ts (not among the source
files; the spec describes it as a structural copy recursing into children).
Here the fixed point is written directly as one recursive function; the
shared mutable type table of the source is threaded explicitly, and a
fatal compilation error is an `Except.error` (a missing table entry or a
null environment aborts the source with a thrown TypeError; an unbound
name aborts per the spec's stage-resolution error - src/util.ts being
absent, that behavior is modelled from the spec). -/

mutual

def desugar_cross_stage : SyntaxNode → TypeTable → Except String (SyntaxNode × TypeTable)
  | .lookup id ident, tt =>
    match tt.get? id with
    | none => .error "type table: no entry for node"
    | some (_, none) => .error "type table: node has no environment"
    | some (_, some env) =>
      if env.externs.contains ident then
        .ok (.lookup id ident, tt)
      else
        match stack_lookup env.stack ident with
        | none => .error "stage environment: name not found"
        | some 0 => .ok (.lookup id ident, tt)
        | some (k + 1) =>
          .ok (elaborate_subtree (.escape 0 "persist" (.lookup 0 ident) (k + 1)) env tt)
  | .num id v, tt => .ok (.num id v, tt)
  | .letb id x e b, tt =>
    match desugar_cross_stage e tt with
    | .error msg => .error msg
    | .ok (e2, tt1) =>
      match desugar_cross_stage b tt1 with
      | .error msg => .error msg
      | .ok (b2, tt2) => .ok (.letb id x e2 b2, tt2)
  | .quote id a e, tt =>
    match desugar_cross_stage e tt with
    | .error msg => .error msg
    | .ok (e2, tt1) => .ok (.quote id a e2, tt1)
  | .escape id k e c, tt =>
    match desugar_cross_stage e tt with
    | .error msg => .error msg
    | .ok (e2, tt1) => .ok (.escape id k e2 c, tt1)
  | .func id ps b, tt =>
    match desugar_cross_stage b tt with
    | .error msg => .error msg
    | .ok (b2, tt1) => .ok (.func id ps b2, tt1)
  | .call id f args, tt =>
    match desugar_cross_stage f tt with
    | .error msg => .error msg
    | .ok (f2, tt1) =>
      match desugar_cross_stage_args args tt1 with
      | .error msg => .error msg
      | .ok (args2, tt2) => .ok (.call id f2 args2, tt2)
  | .externRef id n e, tt => .ok (.externRef id n e, tt)
  | .macrocall id m, tt => .ok (.macrocall id m, tt)

def desugar_cross_stage_args : ArgList → TypeTable → Except String (ArgList × TypeTable)
  | .nil, tt => .ok (.nil, tt)
  | .cons a rest, tt =>
    match desugar_cross_stage a tt with
    | .error msg => .error msg
    | .ok (a2, tt1) =>
      match desugar_cross_stage_args rest tt1 with
      | .error msg => .error msg
      | .ok (rest2, tt2) => .ok (.cons a2 rest2, tt2)

end

/-! ## Macro-expansion desugaring (src/src/sugar.ts, `_desugar_macros` and
`desugar_macros`): rewrite each macro invocation into a zero-argument call
to the macro's name, wrapped in a splice escape when the name lives a
positive stage distance away, and re-elaborate the new subtree. -/

mutual

def desugar_macros : SyntaxNode → TypeTable → Except String (SyntaxNode × TypeTable)
  | .macrocall id m, tt =>
    match tt.get? id with
    | none => .error "type table: no entry for node"
    | some (_, none) => .error "type table: node has no environment"
    | some (_, some env) =>
      match stack_lookup env.stack m with
      | none => .error "stage environment: name not found"
      | some k =>
        let c := SyntaxNode.call 0 (.lookup 0 m) .nil
        let out := if 0 < k then SyntaxNode.escape 0 "splice" c k else c
        .ok (elaborate_subtree out env tt)
  | .num id v, tt => .ok (.num id v, tt)
  | .lookup id ident, tt => .ok (.lookup id ident, tt)
  | .letb id x e b, tt =>
    match desugar_macros e tt with
    | .error msg => .error msg
    | .ok (e2, tt1) =>
      match desugar_macros b tt1 with
      | .error msg => .error msg
      | .ok (b2, tt2) => .ok (.letb id x e2 b2, tt2)
  | .quote id a e, tt =>
    match desugar_macros e tt with
    | .error msg => .error msg
    | .ok (e2, tt1) => .ok (.quote id a e2, tt1)
  | .escape id k e c, tt =>
    match desugar_macros e tt with
    | .error msg => .error msg
    | .ok (e2, tt1) => .ok (.escape id k e2 c, tt1)
  | .func id ps b, tt =>
    match desugar_macros b tt with
    | .error msg => .error msg
    | .ok (b2, tt1) => .ok (.func id ps b2, tt1)
  | .call id f args, tt =>
    match desugar_macros f tt with
    | .error msg => .error msg
    | .ok (f2, tt1) =>
      match desugar_macros_args args tt1 with
      | .error msg => .error msg
      | .ok (args2, tt2) => .ok (.call id f2 args2, tt2)
  | .externRef id n e, tt => .ok (.externRef id n e, tt)

def desugar_macros_args : ArgList → TypeTable → Except String (ArgList × TypeTable)
  | .nil, tt => .ok (.nil, tt)
  | .cons a rest, tt =>
    match desugar_macros a tt with
    | .error msg => .error msg
    | .ok (a2, tt1) =>
      match desugar_macros_args rest tt1 with
      | .error msg => .error msg
      | .ok (rest2, tt2) => .ok (.cons a2 rest2, tt2)

end

/-! ## Sparse arrays

The second half of src/src/sugar.ts stores Procs, Progs, extern names and
grouping lists in JavaScript arrays used sparsely: `a[i] = v` extends the
array with holes as needed, a hole or an out-of-range read yields
`undefined`.  A sparse array is modelled as a list of options. -/

/-- `a[i] = v` on a sparse array: extend with holes up to `i`, then write. -/
def set_sparse {α : Type} : List (Option α) → Nat → α → List (Option α)
  | [], 0, v => [some v]
  | [], i + 1, v => none :: set_sparse [] i v
  | _ :: t, 0, v => some v :: t
  | h :: t, i + 1, v => h :: set_sparse t i v

/-- `a[i]` on a sparse array: `undefined` (none) for a hole or out of range. -/
def get_sparse {α : Type} (l : List (Option α)) (i : Nat) : Option α :=
  (l.get? i).getD none

/-! ## Procs and Progs (src/src/compile/ir.ts)

Only the attributes that the passes verified here read are carried: a
Proc's identity, parameter list, free-variable list and quote parent, and a
Prog's identity and annotation.  The source's `quote_parent: number` uses
`null` for a Proc outside every quotation, so it is an option here. -/

/-- A lambda-lifted function (ir.ts `Proc`, restricted to the attributes the
verified passes read). -/
structure Proc : Type where
  id : Nat
  params : List Nat
  free : List Nat
  quote_parent : Option Nat
  deriving DecidableEq

/-- A quote-lifted staged program (ir.ts `Prog`, restricted likewise). -/
structure Prog : Type where
  id : Nat
  annotation : String
  quote_parent : Option Nat
  deriving DecidableEq

/-! ## Grouping (src/src/sugar.ts, `group_by_prog`)

The first loop initialises `quoted[prog.id] = []` for every defined Prog;
the second pushes each defined Proc's id into `toplevel` (quote_parent
null) or into `quoted[quote_parent]`.  Pushing into a hole is a thrown
TypeError in the source (`quoted[quote_id]` is `undefined`), modelled as an
`Except.error`. -/

/-- The first loop of `group_by_prog`: give every defined Prog an empty list
in the `quoted` table, skipping holes. -/
def init_quoted : List (Option Prog) → List (Option (List Nat)) → List (Option (List Nat))
  | [], quoted => quoted
  | none :: rest, quoted => init_quoted rest quoted
  | some p :: rest, quoted => init_quoted rest (set_sparse quoted p.id [])

/-- The second loop of `group_by_prog`: insert each defined Proc's id where
it goes, skipping holes; a quote parent with no list is the error branch. -/
def insert_procs : List (Option Proc) → List Nat → List (Option (List Nat)) →
    Except String (List Nat × List (Option (List Nat)))
  | [], toplevel, quoted => .ok (toplevel, quoted)
  | none :: rest, toplevel, quoted => insert_procs rest toplevel quoted
  | some p :: rest, toplevel, quoted =>
    match p.quote_parent with
    | none => insert_procs rest (toplevel ++ [p.id]) quoted
    | some q =>
      match get_sparse quoted q with
      | none => .error "group_by_prog: quote parent has no quoted list"
      | some l => insert_procs rest toplevel (set_sparse quoted q (l ++ [p.id]))

/-- src/src/sugar.ts `group_by_prog`: index the Proc table by containing
Prog, returning the unquoted Procs and, per Prog id, its quoted Procs.  The
`scopes` argument is accepted and ignored exactly as in the source. -/
def group_by_prog (procs : List (Option Proc)) (progs : List (Option Prog))
    (_scopes : List Nat) : Except String (List Nat × List (Option (List Nat))) :=
  insert_procs procs [] (init_quoted progs [])

/-! ## Extern collection (src/src/sugar.ts, `gen_find_externs`)

The fold's only override visits an extern node: it takes a fresh copy of
the accumulator array (`externs.slice(0)`), writes
`e[tree.id] = tree.expansion || tree.name` into the copy and returns the
copy; every other node kind just folds over its children. -/

/-- JavaScript `expansion || name`: the expansion unless it is absent or the
empty string (both falsy). -/
def js_name_or (expansion : Option String) (name : String) : String :=
  match expansion with
  | some e => if e = "" then name else e
  | none => name

mutual

/-- src/src/sugar.ts `find_externs` (the fixed point of `gen_find_externs`)
as a pure fold: the value of the accumulator array after the traversal. -/
def find_externs : SyntaxNode → List (Option String) → List (Option String)
  | .externRef id n e, externs => set_sparse externs id (js_name_or e n)
  | .num _ _, externs => externs
  | .lookup _ _, externs => externs
  | .letb _ _ e b, externs => find_externs b (find_externs e externs)
  | .quote _ _ e, externs => find_externs e externs
  | .escape _ _ e _, externs => find_externs e externs
  | .func _ _ b, externs => find_externs b externs
  | .call _ f args, externs => find_externs_args args (find_externs f externs)
  | .macrocall _ _, externs => externs

def find_externs_args : ArgList → List (Option String) → List (Option String)
  | .nil, externs => externs
  | .cons a rest, externs => find_externs_args rest (find_externs a externs)

end

/-! To state that `find_externs` never mutates the array its caller passed
in (it writes only into a fresh `slice(0)` copy), the same fold is embedded
once more against an explicit store of arrays: an accumulator is a
reference (an index) into the store, visiting an extern node allocates a
new array holding the updated copy, and every other step passes the
incoming reference through untouched. -/

/-- A store of JavaScript arrays; a reference is an index into it. -/
abbrev ExtStore := List (List (Option String))

/-- Read the array a reference designates (an empty array out of range). -/
def store_read (st : ExtStore) (r : Nat) : List (Option String) :=
  (st.get? r).getD []

/-- Allocate a fresh array in the store, returning its reference. -/
def store_alloc (st : ExtStore) (a : List (Option String)) : Nat × ExtStore :=
  (st.length, st ++ [a])

mutual

/-- `find_externs` against the explicit store: the extern case reads the
incoming array, updates a freshly allocated copy (`slice(0)` then index
assignment) and returns the copy's reference; all other cases thread the
reference unchanged through the children. -/
def find_externs_st : SyntaxNode → Nat → ExtStore → Nat × ExtStore
  | .externRef id n e, r, st =>
    store_alloc st (set_sparse (store_read st r) id (js_name_or e n))
  | .num _ _, r, st => (r, st)
  | .lookup _ _, r, st => (r, st)
  | .letb _ _ e b, r, st =>
    let s1 := find_externs_st e r st
    find_externs_st b s1.1 s1.2
  | .quote _ _ e, r, st => find_externs_st e r st
  | .escape _ _ e _, r, st => find_externs_st e r st
  | .func _ _ b, r, st => find_externs_st b r st
  | .call _ f args, r, st =>
    let s1 := find_externs_st f r st
    find_externs_st_args args s1.1 s1.2
  | .macrocall _ _, r, st => (r, st)

def find_externs_st_args : ArgList → Nat → ExtStore → Nat × ExtStore
  | .nil, r, st => (r, st)
  | .cons a rest, r, st =>
    let s1 := find_externs_st a r st
    find_externs_st_args rest s1.1 s1.2

end

/-! ## Semantic analysis (src/src/sugar.ts, `semantically_analyze`)

The assembler first gives the intrinsics fresh identities off the end of
the type table and records them there with a null environment, then runs
scope discovery, def/use resolution, extern collection (adding the
intrinsics to the extern map at their reserved identities), lifting and
grouping, and packages the Intermediate Representation. -/

/-- The def/use table (ir.ts `DefUseTable`): binding-site identity per
variable-read identity, sparse. -/
abbrev DefUseTable := List (Option Nat)

/-- The intrinsics loop of `semantically_analyze`: each intrinsic in turn
gets the identity `type_table.length`, the type table gains its type with a
null environment, and the name-to-identity map gains the pair. -/
def register_intrinsics : List (String × Ty) → TypeTable → TypeTable × List (String × Nat)
  | [], tt => (tt, [])
  | (n, ty) :: rest, tt =>
    let r := register_intrinsics rest (tt ++ [(ty, none)])
    (r.1, (n, tt.length) :: r.2)

/-- The loop that adds the intrinsics to the extern table:
`externs[id] = name` for each pair of the intrinsics map. -/
def add_intrinsic_externs : List (String × Nat) → List (Option String) → List (Option String)
  | [], externs => externs
  | (n, id) :: rest, externs => add_intrinsic_externs rest (set_sparse externs id n)

/-- Modelled from the spec: `find_scopes` lives in src/scope.ts, which is
not among the source files.  `semantically_analyze` only threads its result
into `group_by_prog` (which ignores it) and into the packaged IR, so the
scope tree itself is left unmodelled. -/
def find_scopes (_tree : SyntaxNode) : List Nat := []

/-- Modelled from the spec: `find_def_use` lives in src/defuse.ts, which is
not among the source files.  No claim verified here reads the def/use
table's contents, so it is left unmodelled. -/
def find_def_use (_tree : SyntaxNode) (_intrinsics_map : List (String × Nat)) :
    DefUseTable := []

mutual

/-- Modelled from the spec: the scope-collection half of the Lifter
(src/lift.ts and src/scope.ts are not among the source files).  Walking the
tree with the innermost enclosing quotation at hand, every function node
yields a Proc (its `quote_parent` that quotation) and every quotation node
yields a Prog; free-variable computation belongs to the absent scope
builder and is left unmodelled. -/
def collect_scopes : SyntaxNode → Option Nat → List Proc × List Prog
  | .func id ps b, qp =>
    let r := collect_scopes b qp
    ({ id := id, params := ps, free := [], quote_parent := qp } :: r.1, r.2)
  | .quote id a e, qp =>
    let r := collect_scopes e (some id)
    (r.1, { id := id, annotation := a, quote_parent := qp } :: r.2)
  | .num _ _, _ => ([], [])
  | .lookup _ _, _ => ([], [])
  | .letb _ _ e b, qp =>
    let r1 := collect_scopes e qp
    let r2 := collect_scopes b qp
    (r1.1 ++ r2.1, r1.2 ++ r2.2)
  | .escape _ _ e _, qp =>
    let r := collect_scopes e qp
    r
  | .call _ f args, qp =>
    let r1 := collect_scopes f qp
    let r2 := collect_scopes_args args qp
    (r1.1 ++ r2.1, r1.2 ++ r2.2)
  | .externRef _ _ _, _ => ([], [])
  | .macrocall _ _, _ => ([], [])

def collect_scopes_args : ArgList → Option Nat → List Proc × List Prog
  | .nil, _ => ([], [])
  | .cons a rest, qp =>
    let r1 := collect_scopes a qp
    let r2 := collect_scopes_args rest qp
    (r1.1 ++ r2.1, r1.2 ++ r2.2)

end

/-- Modelled from the spec: `lift` lives in src/lift.ts, which is not among
the source files.  It returns the Proc table and Prog table dense by
identity plus the distinguished main Proc for the program's top-level body
(per the spec: no parameters, no free variables, no quote parent).  The
def/use table and scope arguments are accepted as at the call site and not
consumed by this model. -/
def lift (tree : SyntaxNode) (_defuse : DefUseTable) (_scopes : List Nat) :
    List (Option Proc) × Proc × List (Option Prog) :=
  let r := collect_scopes tree none
  let procs := r.1.foldl (fun acc p => set_sparse acc p.id p) []
  let progs := r.2.foldl (fun acc p => set_sparse acc p.id p) []
  (procs, { id := 0, params := [], free := [], quote_parent := none }, progs)

/-- The mid-level IR (ir.ts `CompilerIR`, plus the grouping and scope fields
the packaging code of src/src/sugar.ts actually stores). -/
structure CompilerIR : Type where
  defuse : DefUseTable
  procs : List (Option Proc)
  main : Proc
  progs : List (Option Prog)
  toplevel_procs : List Nat
  quoted_procs : List (Option (List Nat))
  type_table : TypeTable
  externs : List (Option String)
  scopes : List Nat

/-- src/src/sugar.ts `semantically_analyze`: register the intrinsics into
the type table and extern map, run the analyses in the source's order and
package the IR; a thrown error anywhere (here: from the grouping step)
aborts the compilation. -/
def semantically_analyze (tree : SyntaxNode) (type_table : TypeTable)
    (intrinsics : List (String × Ty)) : Except String CompilerIR :=
  let ri := register_intrinsics intrinsics type_table
  let scopes := find_scopes tree
  let defuse := find_def_use tree ri.2
  let externs := add_intrinsic_externs ri.2 (find_externs tree [])
  let lifted := lift tree defuse scopes
  match group_by_prog lifted.1 lifted.2.2 scopes with
  | .error msg => .error msg
  | .ok (toplevel_procs, quoted_procs) =>
    .ok { defuse := defuse, procs := lifted.1, main := lifted.2.1,
          progs := lifted.2.2, toplevel_procs := toplevel_procs,
          quoted_procs := quoted_procs, type_table := ri.1,
          externs := externs, scopes := scopes }

/-! ## Helper lemmas -/

theorem get_set_sparse {α : Type} (l : List (Option α)) (i : Nat) (v : α) (j : Nat) :
    get_sparse (set_sparse l i v) j = if i = j then some v else get_sparse l j := by
  induction l generalizing i j with
  | nil =>
    induction i generalizing j with
    | zero =>
      cases j <;> simp [set_sparse, get_sparse]
    | succ i ih =>
      cases j with
      | zero => simp [set_sparse, get_sparse]
      | succ j =>
        simp only [set_sparse, get_sparse, List.get?]
        simpa [get_sparse] using ih j
  | cons h t ih =>
    cases i with
    | zero => cases j <;> simp [set_sparse, get_sparse]
    | succ i =>
      cases j with
      | zero => simp [set_sparse, get_sparse]
      | succ j =>
        simp only [set_sparse, get_sparse, List.get?]
        simpa [get_sparse] using ih i j

theorem prefix_get? {α : Type} {l₁ l₂ : List α} (h : l₁ <+: l₂) {i : Nat}
    (hi : i < l₁.length) : l₂.get? i = l₁.get? i := by
  obtain ⟨t, rfl⟩ := h
  exact List.get?_append hi

mutual

theorem elaborate_subtree_grows : ∀ (t : SyntaxNode) (env : StageEnv) (tt : TypeTable),
    tt <+: (elaborate_subtree t env tt).2
  | .num _ _, env, tt => by
    simpa [elaborate_subtree] using List.prefix_append tt [(0, some env)]
  | .lookup _ _, env, tt => by
    simpa [elaborate_subtree] using List.prefix_append tt [(0, some env)]
  | .letb _ _ e b, env, tt => by
    simp only [elaborate_subtree]
    exact (List.prefix_append _ _).trans
      ((elaborate_subtree_grows e env _).trans (elaborate_subtree_grows b env _))
  | .quote _ _ e, env, tt => by
    simp only [elaborate_subtree]
    exact (List.prefix_append _ _).trans (elaborate_subtree_grows e env _)
  | .escape _ _ e _, env, tt => by
    simp only [elaborate_subtree]
    exact (List.prefix_append _ _).trans (elaborate_subtree_grows e env _)
  | .func _ _ b, env, tt => by
    simp only [elaborate_subtree]
    exact (List.prefix_append _ _).trans (elaborate_subtree_grows b env _)
  | .call _ f args, env, tt => by
    simp only [elaborate_subtree]
    exact (List.prefix_append _ _).trans
      ((elaborate_subtree_grows f env _).trans (elaborate_args_grows args env _))
  | .externRef _ _ _, env, tt => by
    simpa [elaborate_subtree] using List.prefix_append tt [(0, some env)]
  | .macrocall _ _, env, tt => by
    simpa [elaborate_subtree] using List.prefix_append tt [(0, some env)]

theorem elaborate_args_grows : ∀ (args : ArgList) (env : StageEnv) (tt : TypeTable),
    tt <+: (elaborate_args args env tt).2
  | .nil, _, tt => List.prefix_refl tt
  | .cons a rest, env, tt => by
    simp only [elaborate_args]
    exact (elaborate_subtree_grows a env _).trans (elaborate_args_grows rest env _)

end

mutual

theorem erase_elaborate : ∀ (t : SyntaxNode) (env : StageEnv) (tt : TypeTable),
    erase (elaborate_subtree t env tt).1 = erase t
  | .num _ _, _, _ => rfl
  | .lookup _ _, _, _ => rfl
  | .letb _ _ e b, env, tt => by
    simp only [elaborate_subtree, erase]
    rw [erase_elaborate e env _, erase_elaborate b env _]
  | .quote _ _ e, env, tt => by
    simp only [elaborate_subtree, erase]
    rw [erase_elaborate e env _]
  | .escape _ _ e _, env, tt => by
    simp only [elaborate_subtree, erase]
    rw [erase_elaborate e env _]
  | .func _ _ b, env, tt => by
    simp only [elaborate_subtree, erase]
    rw [erase_elaborate b env _]
  | .call _ f args, env, tt => by
    simp only [elaborate_subtree, erase]
    rw [erase_elaborate f env _, erase_elaborate_args args env _]
  | .externRef _ _ _, _, _ => rfl
  | .macrocall _ _, _, _ => rfl

theorem erase_elaborate_args : ∀ (args : ArgList) (env : StageEnv) (tt : TypeTable),
    eraseArgs (elaborate_args args env tt).1 = eraseArgs args
  | .nil, _, _ => rfl
  | .cons a rest, env, tt => by
    simp only [elaborate_args, eraseArgs]
    rw [erase_elaborate a env _, erase_elaborate_args rest env _]

end

mutual

theorem desugar_cross_stage_grows :
    ∀ (t : SyntaxNode) (tt : TypeTable) (res : SyntaxNode × TypeTable),
    desugar_cross_stage t tt = .ok res → tt <+: res.2
  | .num _ _, tt, res, h => by
    simp only [desugar_cross_stage] at h
    cases h
    exact List.prefix_refl tt
  | .lookup id ident, tt, res, h => by
    simp only [desugar_cross_stage] at h
    split at h
    · simp at h
    · simp at h
    · split at h
      · cases h
        exact List.prefix_refl tt
      · split at h
        · simp at h
        · cases h
          exact List.prefix_refl tt
        · cases h
          exact elaborate_subtree_grows _ _ _
  | .letb _ _ e b, tt, res, h => by
    simp only [desugar_cross_stage] at h
    split at h
    · simp at h
    next e2 tt1 heq =>
      split at h
      · simp at h
      next b2 tt2 heq2 =>
        cases h
        exact (desugar_cross_stage_grows e tt (e2, tt1) heq).trans
          (desugar_cross_stage_grows b tt1 (b2, tt2) heq2)
  | .quote _ _ e, tt, res, h => by
    simp only [desugar_cross_stage] at h
    split at h
    · simp at h
    next e2 tt1 heq =>
      cases h
      exact desugar_cross_stage_grows e tt (e2, tt1) heq
  | .escape _ _ e _, tt, res, h => by
    simp only [desugar_cross_stage] at h
    split at h
    · simp at h
    next e2 tt1 heq =>
      cases h
      exact desugar_cross_stage_grows e tt (e2, tt1) heq
  | .func _ _ b, tt, res, h => by
    simp only [desugar_cross_stage] at h
    split at h
    · simp at h
    next b2 tt1 heq =>
      cases h
      exact desugar_cross_stage_grows b tt (b2, tt1) heq
  | .call _ f args, tt, res, h => by
    simp only [desugar_cross_stage] at h
    split at h
    · simp at h
    next f2 tt1 heq =>
      split at h
      · simp at h
      next args2 tt2 heq2 =>
        cases h
        exact (desugar_cross_stage_grows f tt (f2, tt1) heq).trans
          (desugar_cross_stage_args_grows args tt1 (args2, tt2) heq2)
  | .externRef _ _ _, tt, res, h => by
    simp only [desugar_cross_stage] at h
    cases h
    exact List.prefix_refl tt
  | .macrocall _ _, tt, res, h => by
    simp only [desugar_cross_stage] at h
    cases h
    exact List.prefix_refl tt

theorem desugar_cross_stage_args_grows :
    ∀ (args : ArgList) (tt : TypeTable) (res : ArgList × TypeTable),
    desugar_cross_stage_args args tt = .ok res → tt <+: res.2
  | .nil, tt, res, h => by
    simp only [desugar_cross_stage_args] at h
    cases h
    exact List.prefix_refl tt
  | .cons a rest, tt, res, h => by
    simp only [desugar_cross_stage_args] at h
    split at h
    · simp at h
    next a2 tt1 heq =>
      split at h
      · simp at h
      next rest2 tt2 heq2 =>
        cases h
        exact (desugar_cross_stage_grows a tt (a2, tt1) heq).trans
          (desugar_cross_stage_args_grows rest tt1 (rest2, tt2) heq2)

end

mutual

theorem desugar_macros_grows :
    ∀ (t : SyntaxNode) (tt : TypeTable) (res : SyntaxNode × TypeTable),
    desugar_macros t tt = .ok res → tt <+: res.2
  | .macrocall id m, tt, res, h => by
    simp only [desugar_macros] at h
    split at h
    · simp at h
    · simp at h
    · split at h
      · simp at h
      · cases h
        exact elaborate_subtree_grows _ _ _
  | .num _ _, tt, res, h => by
    simp only [desugar_macros] at h
    cases h
    exact List.prefix_refl tt
  | .lookup _ _, tt, res, h => by
    simp only [desugar_macros] at h
    cases h
    exact List.prefix_refl tt
  | .letb _ _ e b, tt, res, h => by
    simp only [desugar_macros] at h
    split at h
    · simp at h
    next e2 tt1 heq =>
      split at h
      · simp at h
      next b2 tt2 heq2 =>
        cases h
        exact (desugar_macros_grows e tt (e2, tt1) heq).trans
          (desugar_macros_grows b tt1 (b2, tt2) heq2)
  | .quote _ _ e, tt, res, h => by
    simp only [desugar_macros] at h
    split at h
    · simp at h
    next e2 tt1 heq =>
      cases h
      exact desugar_macros_grows e tt (e2, tt1) heq
  | .escape _ _ e _, tt, res, h => by
    simp only [desugar_macros] at h
    split at h
    · simp at h
    next e2 tt1 heq =>
      cases h
      exact desugar_macros_grows e tt (e2, tt1) heq
  | .func _ _ b, tt, res, h => by
    simp only [desugar_macros] at h
    split at h
    · simp at h
    next b2 tt1 heq =>
      cases h
      exact desugar_macros_grows b tt (b2, tt1) heq
  | .call _ f args, tt, res, h => by
    simp only [desugar_macros] at h
    split at h
    · simp at h
    next f2 tt1 heq =>
      split at h
      · simp at h
      next args2 tt2 heq2 =>
        cases h
        exact (desugar_macros_grows f tt (f2, tt1) heq).trans
          (desugar_macros_args_grows args tt1 (args2, tt2) heq2)
  | .externRef _ _ _, tt, res, h => by
    simp only [desugar_macros] at h
    cases h
    exact List.prefix_refl tt

theorem desugar_macros_args_grows :
    ∀ (args : ArgList) (tt : TypeTable) (res : ArgList × TypeTable),
    desugar_macros_args args tt = .ok res → tt <+: res.2
  | .nil, tt, res, h => by
    simp only [desugar_macros_args] at h
    cases h
    exact List.prefix_refl tt
  | .cons a rest, tt, res, h => by
    simp only [desugar_macros_args] at h
    split at h
    · simp at h
    next a2 tt1 heq =>
      split at h
      · simp at h
      next rest2 tt2 heq2 =>
        cases h
        exact (desugar_macros_grows a tt (a2, tt1) heq).trans
          (desugar_macros_args_grows rest tt1 (rest2, tt2) heq2)

end

mutual

/-- Every variable read in the tree resolves, in its captured environment,
to a non-extern name bound at stage distance 0. -/
def all_reads_stage0 : SyntaxNode → TypeTable → Bool
  | .lookup id ident, tt =>
    match tt.get? id with
    | some (_, some env) =>
      !(env.externs.contains ident) && (stack_lookup env.stack ident == some 0)
    | _ => false
  | .num _ _, _ => true
  | .letb _ _ e b, tt => all_reads_stage0 e tt && all_reads_stage0 b tt
  | .quote _ _ e, tt => all_reads_stage0 e tt
  | .escape _ _ e _, tt => all_reads_stage0 e tt
  | .func _ _ b, tt => all_reads_stage0 b tt
  | .call _ f args, tt => all_reads_stage0 f tt && all_reads_stage0_args args tt
  | .externRef _ _ _, _ => true
  | .macrocall _ _, _ => true

def all_reads_stage0_args : ArgList → TypeTable → Bool
  | .nil, _ => true
  | .cons a rest, tt => all_reads_stage0 a tt && all_reads_stage0_args rest tt

end

mutual

theorem desugar_cross_stage_stage0 :
    ∀ (t : SyntaxNode) (tt : TypeTable), all_reads_stage0 t tt = true →
    desugar_cross_stage t tt = .ok (t, tt)
  | .num _ _, tt, _ => rfl
  | .lookup id ident, tt, h => by
    simp only [all_reads_stage0] at h
    split at h
    next ty env heq =>
      simp only [Bool.and_eq_true, Bool.not_eq_true', beq_iff_eq] at h
      simp only [desugar_cross_stage, heq, h.1, Bool.false_eq_true, if_false, h.2]
    next => simp at h
  | .letb _ _ e b, tt, h => by
    simp only [all_reads_stage0, Bool.and_eq_true] at h
    simp only [desugar_cross_stage, desugar_cross_stage_stage0 e tt h.1,
      desugar_cross_stage_stage0 b tt h.2]
  | .quote _ _ e, tt, h => by
    simp only [all_reads_stage0] at h
    simp only [desugar_cross_stage, desugar_cross_stage_stage0 e tt h]
  | .escape _ _ e _, tt, h => by
    simp only [all_reads_stage0] at h
    simp only [desugar_cross_stage, desugar_cross_stage_stage0 e tt h]
  | .func _ _ b, tt, h => by
    simp only [all_reads_stage0] at h
    simp only [desugar_cross_stage, desugar_cross_stage_stage0 b tt h]
  | .call _ f args, tt, h => by
    simp only [all_reads_stage0, Bool.and_eq_true] at h
    simp only [desugar_cross_stage, desugar_cross_stage_stage0 f tt h.1,
      desugar_cross_stage_args_stage0 args tt h.2]
  | .externRef _ _ _, tt, _ => rfl
  | .macrocall _ _, tt, _ => rfl

theorem desugar_cross_stage_args_stage0 :
    ∀ (args : ArgList) (tt : TypeTable), all_reads_stage0_args args tt = true →
    desugar_cross_stage_args args tt = .ok (args, tt)
  | .nil, tt, _ => rfl
  | .cons a rest, tt, h => by
    simp only [all_reads_stage0_args, Bool.and_eq_true] at h
    simp only [desugar_cross_stage_args, desugar_cross_stage_stage0 a tt h.1,
      desugar_cross_stage_args_stage0 rest tt h.2]

end

/-! ## Lemmas about grouping -/

/-- The identities of the defined (non-hole) Procs, in table order. -/
def proc_ids (procs : List (Option Proc)) : List Nat :=
  procs.filterMap (fun o => o.map Proc.id)

/-- The identities of the defined (non-hole) Progs, in table order. -/
def prog_ids (progs : List (Option Prog)) : List Nat :=
  progs.filterMap (fun o => o.map Prog.id)

/-- Every Proc id held by any list of the quoted table. -/
def all_grouped (quoted : List (Option (List Nat))) : List Nat :=
  (quoted.map (fun o => o.getD [])).join

theorem proc_ids_cons_some (p : Proc) (rest : List (Option Proc)) :
    proc_ids (some p :: rest) = p.id :: proc_ids rest := by
  simp [proc_ids, List.filterMap_cons]

theorem proc_ids_cons_none (rest : List (Option Proc)) :
    proc_ids (none :: rest) = proc_ids rest := by
  simp [proc_ids, List.filterMap_cons]

theorem prog_ids_cons_some (p : Prog) (rest : List (Option Prog)) :
    prog_ids (some p :: rest) = p.id :: prog_ids rest := by
  simp [prog_ids, List.filterMap_cons]

theorem prog_ids_cons_none (rest : List (Option Prog)) :
    prog_ids (none :: rest) = prog_ids rest := by
  simp [prog_ids, List.filterMap_cons]

theorem all_grouped_set_push (qt : List (Option (List Nat))) (q : Nat) (l : List Nat)
    (x : Nat) (h : get_sparse qt q = some l) :
    (all_grouped (set_sparse qt q (l ++ [x]))).Perm (x :: all_grouped qt) := by
  induction qt generalizing q with
  | nil => simp [get_sparse] at h
  | cons hd t ih =>
    cases q with
    | zero =>
      simp only [get_sparse, List.get?] at h
      subst h
      simp only [set_sparse, all_grouped, List.map_cons, List.flatten_cons,
        Option.getD_some, List.append_assoc, List.singleton_append]
      exact List.perm_middle
    | succ q =>
      simp only [get_sparse, List.get?] at h
      have hstep := ih q (by simpa [get_sparse] using h)
      simp only [set_sparse, all_grouped, List.map_cons, List.flatten_cons]
      exact (List.Perm.append_left _ (by simpa [all_grouped] using hstep)).trans
        List.perm_middle

theorem init_quoted_get (progs : List (Option Prog)) (qt0 : List (Option (List Nat)))
    (i : Nat) : get_sparse (init_quoted progs qt0) i =
      if i ∈ prog_ids progs then some [] else get_sparse qt0 i := by
  induction progs generalizing qt0 with
  | nil => simp [init_quoted, prog_ids]
  | cons hd rest ih =>
    cases hd with
    | none => rw [init_quoted, ih, prog_ids_cons_none]
    | some p =>
      rw [init_quoted, ih, prog_ids_cons_some, get_set_sparse]
      by_cases hmem : i ∈ prog_ids rest
      · simp [List.mem_cons, hmem]
      · by_cases hip : p.id = i
        · subst hip
          simp [List.mem_cons, hmem]
        · simp [List.mem_cons, hmem, hip, Ne.symm hip]

theorem insert_procs_mono (procs : List (Option Proc)) (tl : List Nat)
    (qt : List (Option (List Nat))) (tl' : List Nat) (qt' : List (Option (List Nat)))
    (h : insert_procs procs tl qt = .ok (tl', qt')) :
    (∀ x ∈ tl, x ∈ tl') ∧
    (∀ q l, get_sparse qt q = some l → ∃ l', get_sparse qt' q = some l' ∧ ∀ x ∈ l, x ∈ l') := by
  induction procs generalizing tl qt with
  | nil =>
    simp only [insert_procs] at h
    cases h
    exact ⟨fun x hx => hx, fun q l hl => ⟨l, hl, fun x hx => hx⟩⟩
  | cons hd rest ih =>
    cases hd with
    | none => exact ih _ _ h
    | some p =>
      simp only [insert_procs] at h
      split at h
      · have hrec := ih _ _ h
        exact ⟨fun x hx => hrec.1 x (List.mem_append_left _ hx), hrec.2⟩
      next q hq =>
        split at h
        · simp at h
        next l hl =>
          have hrec := ih _ _ h
          refine ⟨hrec.1, fun q0 l0 hl0 => ?_⟩
          by_cases hqq : q = q0
          · subst hqq
            have hl0' : l0 = l := by
              rw [hl0] at hl
              exact Option.some_injective _ hl
            subst hl0'
            obtain ⟨l', hget, hsub⟩ := hrec.2 q (l0 ++ [p.id]) (by
              rw [get_set_sparse]
              simp)
            exact ⟨l', hget, fun x hx => hsub x (List.mem_append_left _ hx)⟩
          · obtain ⟨l', hget, hsub⟩ := hrec.2 q0 l0 (by
              rw [get_set_sparse]
              simp [hqq, hl0])
            exact ⟨l', hget, hsub⟩

theorem insert_procs_ok (procs : List (Option Proc)) (tl : List Nat)
    (qt : List (Option (List Nat)))
    (hwf : ∀ pr q, some pr ∈ procs → pr.quote_parent = some q → get_sparse qt q ≠ none) :
    ∃ r, insert_procs procs tl qt = .ok r := by
  induction procs generalizing tl qt with
  | nil => exact ⟨(tl, qt), rfl⟩
  | cons hd rest ih =>
    cases hd with
    | none =>
      exact ih tl qt fun pr q hm hq => hwf pr q (List.mem_cons_of_mem _ hm) hq
    | some p =>
      simp only [insert_procs]
      split
      · exact ih _ qt fun pr q hm hq => hwf pr q (List.mem_cons_of_mem _ hm) hq
      next q hq =>
        split
        next hnone =>
          exact absurd hnone (hwf p q (List.mem_cons_self _ _) hq)
        next l hl =>
          refine ih tl _ fun pr q0 hm hq0 => ?_
          rw [get_set_sparse]
          by_cases hqq : q = q0
          · simp [hqq]
          · simp only [hqq, if_false]
            exact hwf pr q0 (List.mem_cons_of_mem _ hm) hq0

theorem insert_procs_perm (procs : List (Option Proc)) (tl : List Nat)
    (qt : List (Option (List Nat))) (tl' : List Nat) (qt' : List (Option (List Nat)))
    (h : insert_procs procs tl qt = .ok (tl', qt')) :
    (tl' ++ all_grouped qt').Perm ((tl ++ all_grouped qt) ++ proc_ids procs) := by
  induction procs generalizing tl qt with
  | nil =>
    simp only [insert_procs] at h
    cases h
    simp [proc_ids]
  | cons hd rest ih =>
    cases hd with
    | none =>
      rw [proc_ids_cons_none]
      exact ih _ _ h
    | some p =>
      rw [proc_ids_cons_some]
      simp only [insert_procs] at h
      split at h
      · have hperm := ih _ _ h
        have e1 : ((tl ++ [p.id]) ++ all_grouped qt) ++ proc_ids rest
            = tl ++ (p.id :: (all_grouped qt ++ proc_ids rest)) := by
          simp [List.append_assoc]
        have e2 : (tl ++ all_grouped qt) ++ (p.id :: proc_ids rest)
            = tl ++ (all_grouped qt ++ (p.id :: proc_ids rest)) := by
          simp [List.append_assoc]
        rw [e1] at hperm
        rw [e2]
        exact hperm.trans (List.Perm.append_left tl List.perm_middle.symm)
      next q hq =>
        split at h
        · simp at h
        next l hl =>
          have hperm := ih _ _ h
          have hpush := all_grouped_set_push qt q l p.id hl
          have e1 : (tl ++ (p.id :: all_grouped qt)) ++ proc_ids rest
              = tl ++ (p.id :: (all_grouped qt ++ proc_ids rest)) := by
            simp [List.append_assoc]
          have e2 : (tl ++ all_grouped qt) ++ (p.id :: proc_ids rest)
              = tl ++ (all_grouped qt ++ (p.id :: proc_ids rest)) := by
            simp [List.append_assoc]
          refine hperm.trans ?_
          refine (List.Perm.append_right _ (List.Perm.append_left tl hpush)).trans ?_
          rw [e1, e2]
          exact List.Perm.append_left tl List.perm_middle.symm

theorem insert_procs_mem_top (procs : List (Option Proc)) (tl : List Nat)
    (qt : List (Option (List Nat))) (tl' : List Nat) (qt' : List (Option (List Nat)))
    (h : insert_procs procs tl qt = .ok (tl', qt'))
    (pr : Proc) (hm : some pr ∈ procs) (hqp : pr.quote_parent = none) :
    pr.id ∈ tl' := by
  induction procs generalizing tl qt with
  | nil => simp at hm
  | cons hd rest ih =>
    cases hd with
    | none =>
      have hm' : some pr ∈ rest := by
        rcases List.mem_cons.1 hm with hc | hc
        · simp at hc
        · exact hc
      exact ih _ _ h hm'
    | some p =>
      rcases List.mem_cons.1 hm with hc | hc
      · have hpp : p = pr := by
          exact Option.some_injective _ hc.symm
        subst hpp
        simp only [insert_procs, hqp] at h
        have := (insert_procs_mono _ _ _ _ _ h).1
        exact this p.id (by simp)
      · simp only [insert_procs] at h
        split at h
        · exact ih _ _ h hc
        next q hq =>
          split at h
          · simp at h
          next l hl => exact ih _ _ h hc

theorem insert_procs_mem_quoted (procs : List (Option Proc)) (tl : List Nat)
    (qt : List (Option (List Nat))) (tl' : List Nat) (qt' : List (Option (List Nat)))
    (h : insert_procs procs tl qt = .ok (tl', qt'))
    (pr : Proc) (q : Nat) (hm : some pr ∈ procs) (hqp : pr.quote_parent = some q) :
    ∃ l', get_sparse qt' q = some l' ∧ pr.id ∈ l' := by
  induction procs generalizing tl qt with
  | nil => simp at hm
  | cons hd rest ih =>
    cases hd with
    | none =>
      have hm' : some pr ∈ rest := by
        rcases List.mem_cons.1 hm with hc | hc
        · simp at hc
        · exact hc
      exact ih _ _ h hm'
    | some p =>
      rcases List.mem_cons.1 hm with hc | hc
      · have hpp : p = pr := Option.some_injective _ hc.symm
        subst hpp
        simp only [insert_procs, hqp] at h
        split at h
        · simp at h
        next l hl =>
          obtain ⟨l', hget, hsub⟩ := (insert_procs_mono _ _ _ _ _ h).2 q (l ++ [p.id]) (by
            rw [get_set_sparse]
            simp)
          exact ⟨l', hget, hsub p.id (by simp)⟩
      · simp only [insert_procs] at h
        split at h
        · exact ih _ _ h hc
        next q0 hq0 =>
          split at h
          · simp at h
          next l hl => exact ih _ _ h hc

theorem insert_procs_error (procs : List (Option Proc)) (tl : List Nat)
    (qt : List (Option (List Nat))) (pr : Proc) (q : Nat)
    (hm : some pr ∈ procs) (hqp : pr.quote_parent = some q)
    (hnone : get_sparse qt q = none) :
    ∃ msg, insert_procs procs tl qt = .error msg := by
  induction procs generalizing tl qt with
  | nil => simp at hm
  | cons hd rest ih =>
    cases hd with
    | none =>
      have hm' : some pr ∈ rest := by
        rcases List.mem_cons.1 hm with hc | hc
        · simp at hc
        · exact hc
      exact ih _ _ hm' hnone
    | some p =>
      rcases List.mem_cons.1 hm with hc | hc
      · have hpp : p = pr := Option.some_injective _ hc.symm
        subst hpp
        simp only [insert_procs, hqp, hnone]
        exact ⟨_, rfl⟩
      · simp only [insert_procs]
        split
        · exact ih _ _ hc hnone
        next q0 hq0 =>
          split
          next => exact ⟨_, rfl⟩
          next l hl =>
            refine ih _ _ hc ?_
            rw [get_set_sparse]
            have hne : q0 ≠ q := by
              intro heq
              rw [heq, hnone] at hl
              exact Option.noConfusion hl
            simp [hne, hnone]

theorem insert_procs_untouched (procs : List (Option Proc)) (tl : List Nat)
    (qt : List (Option (List Nat))) (tl' : List Nat) (qt' : List (Option (List Nat)))
    (q : Nat) (h : insert_procs procs tl qt = .ok (tl', qt'))
    (hno : ∀ pr, some pr ∈ procs → pr.quote_parent ≠ some q) :
    get_sparse qt' q = get_sparse qt q := by
  induction procs generalizing tl qt with
  | nil =>
    simp only [insert_procs] at h
    cases h
    rfl
  | cons hd rest ih =>
    cases hd with
    | none => exact ih _ _ h fun pr hm => hno pr (List.mem_cons_of_mem _ hm)
    | some p =>
      simp only [insert_procs] at h
      split at h
      · exact ih _ _ h fun pr hm => hno pr (List.mem_cons_of_mem _ hm)
      next q0 hq0 =>
        split at h
        · simp at h
        next l hl =>
          rw [ih _ _ h fun pr hm => hno pr (List.mem_cons_of_mem _ hm),
            get_set_sparse]
          have hne : q0 ≠ q := by
            intro hqeq
            exact hno p (List.mem_cons_self _ _) (hqeq ▸ hq0)
          simp [hne]

theorem insert_procs_skip_hole (ps1 ps2 : List (Option Proc)) (tl : List Nat)
    (qt : List (Option (List Nat))) :
    insert_procs (ps1 ++ none :: ps2) tl qt = insert_procs (ps1 ++ ps2) tl qt := by
  induction ps1 generalizing tl qt with
  | nil => rfl
  | cons hd rest ih =>
    cases hd with
    | none => simpa [insert_procs] using ih tl qt
    | some p =>
      simp only [List.cons_append, insert_procs]
      split
      · exact ih _ _
      next q hq =>
        split
        · rfl
        next l hl => exact ih _ _

theorem init_quoted_skip_hole (qs1 qs2 : List (Option Prog))
    (qt : List (Option (List Nat))) :
    init_quoted (qs1 ++ none :: qs2) qt = init_quoted (qs1 ++ qs2) qt := by
  induction qs1 generalizing qt with
  | nil => rfl
  | cons hd rest ih =>
    cases hd with
    | none => simpa [init_quoted] using ih qt
    | some p => simpa [init_quoted] using ih (set_sparse qt p.id [])

/-! ## Lemmas about extern collection and intrinsic registration -/

mutual

/-- The writes the extern fold performs, in traversal order: for each extern
node, the recorded name (`expansion || name`) and the node's identity. -/
def extern_writes : SyntaxNode → List (String × Nat)
  | .externRef id n e => [(js_name_or e n, id)]
  | .num _ _ => []
  | .lookup _ _ => []
  | .letb _ _ e b => extern_writes e ++ extern_writes b
  | .quote _ _ e => extern_writes e
  | .escape _ _ e _ => extern_writes e
  | .func _ _ b => extern_writes b
  | .call _ f args => extern_writes f ++ extern_writes_args args
  | .macrocall _ _ => []

def extern_writes_args : ArgList → List (String × Nat)
  | .nil => []
  | .cons a rest => extern_writes a ++ extern_writes_args rest

end

theorem add_intrinsic_externs_append (m1 m2 : List (String × Nat))
    (e : List (Option String)) :
    add_intrinsic_externs (m1 ++ m2) e = add_intrinsic_externs m2 (add_intrinsic_externs m1 e) := by
  induction m1 generalizing e with
  | nil => rfl
  | cons hd rest ih =>
    obtain ⟨n, i⟩ := hd
    simp only [List.cons_append, add_intrinsic_externs]
    exact ih _

mutual

theorem find_externs_as_writes : ∀ (t : SyntaxNode) (e : List (Option String)),
    find_externs t e = add_intrinsic_externs (extern_writes t) e
  | .externRef _ _ _, e => rfl
  | .num _ _, _ => rfl
  | .lookup _ _, _ => rfl
  | .letb _ _ e0 b, e => by
    rw [find_externs, extern_writes, add_intrinsic_externs_append,
      find_externs_as_writes e0 e, find_externs_as_writes b _]
  | .quote _ _ e0, e => by
    rw [find_externs, extern_writes, find_externs_as_writes e0 e]
  | .escape _ _ e0 _, e => by
    rw [find_externs, extern_writes, find_externs_as_writes e0 e]
  | .func _ _ b, e => by
    rw [find_externs, extern_writes, find_externs_as_writes b e]
  | .call _ f args, e => by
    rw [find_externs, extern_writes, add_intrinsic_externs_append,
      find_externs_as_writes f e, find_externs_args_as_writes args _]
  | .macrocall _ _, _ => rfl

theorem find_externs_args_as_writes : ∀ (args : ArgList) (e : List (Option String)),
    find_externs_args args e = add_intrinsic_externs (extern_writes_args args) e
  | .nil, _ => rfl
  | .cons a rest, e => by
    rw [find_externs_args, extern_writes_args, add_intrinsic_externs_append,
      find_externs_as_writes a e, find_externs_args_as_writes rest _]

end

theorem add_intrinsic_externs_get_not_mem (m : List (String × Nat))
    (e : List (Option String)) (i : Nat) (hni : i ∉ m.map Prod.snd) :
    get_sparse (add_intrinsic_externs m e) i = get_sparse e i := by
  induction m generalizing e with
  | nil => rfl
  | cons hd rest ih =>
    obtain ⟨n, j⟩ := hd
    simp only [List.map_cons, List.mem_cons] at hni
    push_neg at hni
    rw [add_intrinsic_externs, ih _ hni.2, get_set_sparse]
    simp [Ne.symm hni.1]

theorem add_intrinsic_externs_get_mem (m : List (String × Nat))
    (e : List (Option String)) (n : String) (i : Nat)
    (hnd : (m.map Prod.snd).Nodup) (hm : (n, i) ∈ m) :
    get_sparse (add_intrinsic_externs m e) i = some n := by
  induction m generalizing e with
  | nil => simp at hm
  | cons hd rest ih =>
    obtain ⟨n0, j⟩ := hd
    simp only [List.map_cons, List.nodup_cons] at hnd
    rcases List.mem_cons.1 hm with hc | hc
    · cases hc
      rw [add_intrinsic_externs,
        add_intrinsic_externs_get_not_mem _ _ _ hnd.1, get_set_sparse]
      simp
    · rw [add_intrinsic_externs]
      exact ih _ hnd.2 hc

theorem register_intrinsics_table (ins : List (String × Ty)) (tt : TypeTable) :
    (register_intrinsics ins tt).1 = tt ++ ins.map (fun p => (p.2, none)) := by
  induction ins generalizing tt with
  | nil => simp [register_intrinsics]
  | cons hd rest ih =>
    obtain ⟨n, ty⟩ := hd
    rw [register_intrinsics]
    simp only
    rw [ih]
    simp

theorem register_intrinsics_map_snd (ins : List (String × Ty)) (tt : TypeTable) :
    (register_intrinsics ins tt).2.map Prod.snd = List.range' tt.length ins.length := by
  induction ins generalizing tt with
  | nil => simp [register_intrinsics]
  | cons hd rest ih =>
    obtain ⟨n, ty⟩ := hd
    rw [register_intrinsics]
    simp only [List.map_cons, List.length_cons, List.range'_succ]
    rw [ih]
    simp [Nat.add_comm]

theorem register_intrinsics_mem (ins : List (String × Ty)) (tt : TypeTable)
    (j : Nat) (n : String) (ty : Ty) (hj : ins.get? j = some (n, ty)) :
    (n, tt.length + j) ∈ (register_intrinsics ins tt).2 := by
  induction ins generalizing tt j with
  | nil => simp at hj
  | cons hd rest ih =>
    obtain ⟨n0, ty0⟩ := hd
    cases j with
    | zero =>
      simp only [List.get?] at hj
      cases hj
      rw [register_intrinsics]
      simp
    | succ j =>
      simp only [List.get?] at hj
      rw [register_intrinsics]
      simp only [List.mem_cons]
      right
      have := ih (tt ++ [(ty0, none)]) j hj
      simpa [Nat.add_comm, Nat.add_assoc, Nat.add_left_comm] using this

theorem store_read_alloc (st : ExtStore) (a : List (Option String)) :
    store_read (store_alloc st a).2 (store_alloc st a).1 = a := by
  simp [store_read, store_alloc, List.get?_concat_length]

mutual

theorem find_externs_st_grows : ∀ (t : SyntaxNode) (r : Nat) (st : ExtStore),
    st <+: (find_externs_st t r st).2
  | .externRef _ _ _, r, st => by
    simp only [find_externs_st, store_alloc]
    exact List.prefix_append st _
  | .num _ _, r, st => List.prefix_refl st
  | .lookup _ _, r, st => List.prefix_refl st
  | .letb _ _ e b, r, st => by
    simp only [find_externs_st]
    exact (find_externs_st_grows e r st).trans (find_externs_st_grows b _ _)
  | .quote _ _ e, r, st => find_externs_st_grows e r st
  | .escape _ _ e _, r, st => find_externs_st_grows e r st
  | .func _ _ b, r, st => find_externs_st_grows b r st
  | .call _ f args, r, st => by
    simp only [find_externs_st]
    exact (find_externs_st_grows f r st).trans (find_externs_st_args_grows args _ _)
  | .macrocall _ _, r, st => List.prefix_refl st

theorem find_externs_st_args_grows : ∀ (args : ArgList) (r : Nat) (st : ExtStore),
    st <+: (find_externs_st_args args r st).2
  | .nil, r, st => List.prefix_refl st
  | .cons a rest, r, st => by
    simp only [find_externs_st_args]
    exact (find_externs_st_grows a r st).trans (find_externs_st_args_grows rest _ _)

end

mutual

theorem find_externs_st_content : ∀ (t : SyntaxNode) (r : Nat) (st : ExtStore),
    store_read (find_externs_st t r st).2 (find_externs_st t r st).1 =
      find_externs t (store_read st r)
  | .externRef id n e, r, st => by
    simp only [find_externs_st, find_externs]
    exact store_read_alloc st _
  | .num _ _, r, st => rfl
  | .lookup _ _, r, st => rfl
  | .letb _ _ e b, r, st => by
    simp only [find_externs_st, find_externs]
    rw [find_externs_st_content b _ _, find_externs_st_content e r st]
  | .quote _ _ e, r, st => by
    simp only [find_externs_st, find_externs]
    rw [find_externs_st_content e r st]
  | .escape _ _ e _, r, st => by
    simp only [find_externs_st, find_externs]
    rw [find_externs_st_content e r st]
  | .func _ _ b, r, st => by
    simp only [find_externs_st, find_externs]
    rw [find_externs_st_content b r st]
  | .call _ f args, r, st => by
    simp only [find_externs_st, find_externs]
    rw [find_externs_st_args_content args _ _, find_externs_st_content f r st]
  | .macrocall _ _, r, st => rfl

theorem find_externs_st_args_content : ∀ (args : ArgList) (r : Nat) (st : ExtStore),
    store_read (find_externs_st_args args r st).2 (find_externs_st_args args r st).1 =
      find_externs_args args (store_read st r)
  | .nil, r, st => rfl
  | .cons a rest, r, st => by
    simp only [find_externs_st_args, find_externs_args]
    rw [find_externs_st_args_content rest _ _, find_externs_st_content a r st]

end

/-! ## Shared concrete data for witnesses -/

/-- A concrete captured environment: "e" is an extern, "x" is bound at the
current stage, "y" one stage outward. -/
def wenv : StageEnv := { externs := ["e"], stack := [["x"], ["y"]] }

/-- A one-entry type table mapping node identity 0 to `wenv`. -/
def wtt : TypeTable := [(0, some wenv)]

/-! ## The claims -/

/-- C1: on a variable-read node the auto-persist pass leaves the node
unchanged when the name is an extern or its stage distance is 0, and for
stage distance k > 0 replaces it with a persist-escape of kind "persist"
wrapping a read of the same name with count k, the new subtree being
re-elaborated (fresh identities appended to the table) before being
returned. -/
theorem auto_persist_on_lookup (id : Nat) (ident : String) (tt : TypeTable)
    (ty : Ty) (env : StageEnv) (hget : tt[id]? = some (ty, some env)) :
    (ident ∈ env.externs →
      desugar_cross_stage (.lookup id ident) tt = .ok (.lookup id ident, tt)) ∧
    (ident ∉ env.externs →
      stack_lookup env.stack ident = some 0 →
      desugar_cross_stage (.lookup id ident) tt = .ok (.lookup id ident, tt)) ∧
    (∀ k, ident ∉ env.externs →
      stack_lookup env.stack ident = some k → 0 < k →
      desugar_cross_stage (.lookup id ident) tt =
        .ok (elaborate_subtree (.escape 0 "persist" (.lookup 0 ident) k) env tt) ∧
      erase (elaborate_subtree (.escape 0 "persist" (.lookup 0 ident) k) env tt).1 =
        .escape "persist" (.lookup ident) k ∧
      tt <+: (elaborate_subtree (.escape 0 "persist" (.lookup 0 ident) k) env tt).2) := by
  refine ⟨?_, ?_, ?_⟩
  · intro hc
    simp [desugar_cross_stage, hget, hc]
  · intro hc hsl
    simp [desugar_cross_stage, hget, hc, hsl]
  · intro k hc hsl hk
    obtain ⟨k', rfl⟩ : ∃ k', k = k' + 1 := ⟨k - 1, (Nat.succ_pred_eq_of_pos hk).symm⟩
    refine ⟨?_, ?_, elaborate_subtree_grows _ _ _⟩
    · simp [desugar_cross_stage, hget, hc, hsl]
    · rw [erase_elaborate]
      simp [erase]

/-- Witness for C1 at a concrete input: the read of "y" (stage distance 1,
not an extern) is rewritten into the re-elaborated persist escape. -/
theorem auto_persist_on_lookup_witness :
    desugar_cross_stage (.lookup 0 "y") wtt =
      .ok (elaborate_subtree (.escape 0 "persist" (.lookup 0 "y") 1) wenv wtt) :=
  ((auto_persist_on_lookup 0 "y" wtt 0 wenv rfl).2.2 1 (by decide) rfl
    (by decide)).1

/-- C2: a macro-invocation node is rewritten into a zero-argument call whose
callee reads the macro's name, wrapped in a splice-escape with the name's
stage distance as count exactly when that distance is positive, and the
resulting subtree is re-elaborated. -/
theorem macro_expansion_on_macrocall (id : Nat) (m : String) (tt : TypeTable)
    (ty : Ty) (env : StageEnv) (k : Nat)
    (hget : tt[id]? = some (ty, some env))
    (hsl : stack_lookup env.stack m = some k) :
    desugar_macros (.macrocall id m) tt =
      .ok (elaborate_subtree
        (if 0 < k then .escape 0 "splice" (.call 0 (.lookup 0 m) .nil) k
         else .call 0 (.lookup 0 m) .nil) env tt) ∧
    (k = 0 → erase (elaborate_subtree (.call 0 (.lookup 0 m) .nil) env tt).1 =
      .call (.lookup m) .nil) ∧
    (0 < k →
      erase (elaborate_subtree
        (.escape 0 "splice" (.call 0 (.lookup 0 m) .nil) k) env tt).1 =
      .escape "splice" (.call (.lookup m) .nil) k) := by
  refine ⟨?_, ?_, ?_⟩
  · simp [desugar_macros, hget, hsl]
  · intro hk
    rw [erase_elaborate]
    simp [erase, eraseArgs]
  · intro hk
    rw [erase_elaborate]
    simp [erase, eraseArgs]

/-- Witness for C2 at a concrete input: the invocation of "y" (stage
distance 1) becomes a splice-escaped zero-argument call. -/
theorem macro_expansion_on_macrocall_witness :
    desugar_macros (.macrocall 0 "y") wtt =
      .ok (elaborate_subtree
        (.escape 0 "splice" (.call 0 (.lookup 0 "y") .nil) 1) wenv wtt) := by
  have h := (macro_expansion_on_macrocall 0 "y" wtt 0 wenv 1 rfl (by decide)).1
  simpa using h

/-- C4: the type table only grows: whatever tree either desugaring pass is
run on, every pre-existing entry survives unchanged at its identity (the
input table is a prefix of the output table), and intrinsic registration
likewise only appends. -/
theorem type_table_monotone :
    (∀ t tt res, desugar_cross_stage t tt = .ok res →
      tt <+: res.2 ∧ ∀ i, i < tt.length → res.2.get? i = tt.get? i) ∧
    (∀ t tt res, desugar_macros t tt = .ok res →
      tt <+: res.2 ∧ ∀ i, i < tt.length → res.2.get? i = tt.get? i) ∧
    (∀ ins tt, tt <+: (register_intrinsics ins tt).1 ∧
      ∀ i, i < tt.length → (register_intrinsics ins tt).1.get? i = tt.get? i) := by
  refine ⟨fun t tt res h => ?_, fun t tt res h => ?_, fun ins tt => ?_⟩
  · have hp := desugar_cross_stage_grows t tt res h
    exact ⟨hp, fun i hi => prefix_get? hp hi⟩
  · have hp := desugar_macros_grows t tt res h
    exact ⟨hp, fun i hi => prefix_get? hp hi⟩
  · have hp : tt <+: (register_intrinsics ins tt).1 := by
      rw [register_intrinsics_table]
      exact List.prefix_append _ _
    exact ⟨hp, fun i hi => prefix_get? hp hi⟩

/-- C5: a non-extern name that the stage environment does not bind aborts
the auto-persist pass, and a macro name the stage environment does not bind
aborts the macro pass: neither produces an output tree. -/
theorem stage_resolution_fatal :
    (∀ id ident tt ty env, tt[id]? = some (ty, some env) →
      ident ∉ env.externs →
      stack_lookup env.stack ident = none →
      desugar_cross_stage (.lookup id ident) tt =
        .error "stage environment: name not found") ∧
    (∀ id m tt ty env, tt[id]? = some (ty, some env) →
      stack_lookup env.stack m = none →
      desugar_macros (.macrocall id m) tt =
        .error "stage environment: name not found") := by
  constructor
  · intro id ident tt ty env hget hc hsl
    simp [desugar_cross_stage, hget, hc, hsl]
  · intro id m tt ty env hget hsl
    simp [desugar_macros, hget, hsl]

/-- C6: on a program in which every variable read is a non-extern name of
stage distance 0, the auto-persist pass returns its input tree (and table)
unchanged. -/
theorem stage0_invariance (t : SyntaxNode) (tt : TypeTable)
    (h : all_reads_stage0 t tt = true) :
    desugar_cross_stage t tt = .ok (t, tt) :=
  desugar_cross_stage_stage0 t tt h

/-- A concrete tree whose single read is stage-0. -/
def wtree : SyntaxNode := .letb 0 "x" (.num 0 1) (.lookup 0 "x")

/-- A type table giving `wtree`'s read a stage-0 binding. -/
def wtt0 : TypeTable := [(0, some { externs := [], stack := [["x"]] })]

/-- Witness for C6 at a concrete input. -/
theorem stage0_invariance_witness :
    all_reads_stage0 wtree wtt0 = true ∧
    desugar_cross_stage wtree wtt0 = .ok (wtree, wtt0) :=
  ⟨by decide, stage0_invariance wtree wtt0 (by decide)⟩

/-- C9: the extern-collection fold never mutates the accumulator array it
receives: against an explicit store of arrays, every array present before
the traversal is still there unchanged afterwards (the store only grows by
fresh copies), and the array the returned reference designates holds
exactly the pure fold's result for the passed-in array's value. -/
theorem find_externs_no_mutation :
    (∀ t r st, st <+: (find_externs_st t r st).2) ∧
    (∀ t r st i, i < st.length → ((find_externs_st t r st).2).get? i = st.get? i) ∧
    (∀ t r st, store_read (find_externs_st t r st).2 (find_externs_st t r st).1 =
      find_externs t (store_read st r)) :=
  ⟨find_externs_st_grows,
   fun t r st _ hi => prefix_get? (find_externs_st_grows t r st) hi,
   find_externs_st_content⟩

theorem mem_set_sparse {α : Type} (l : List (Option α)) (i : Nat) (v : α)
    (x : Option α) (hx : x ∈ set_sparse l i v) : x ∈ l ∨ x = some v ∨ x = none := by
  induction l generalizing i with
  | nil =>
    induction i with
    | zero =>
      simp [set_sparse] at hx
      simp [hx]
    | succ i ih =>
      simp only [set_sparse, List.mem_cons] at hx
      rcases hx with hx | hx
      · simp [hx]
      · rcases ih hx with h | h | h
        · simp at h
        · simp [h]
        · simp [h]
  | cons hd t ih =>
    cases i with
    | zero =>
      simp only [set_sparse, List.mem_cons] at hx
      rcases hx with hx | hx
      · simp [hx]
      · exact Or.inl (List.mem_cons_of_mem _ hx)
    | succ i =>
      simp only [set_sparse, List.mem_cons] at hx
      rcases hx with hx | hx
      · exact Or.inl (hx ▸ List.mem_cons_self _ _)
      · rcases ih i hx with h | h | h
        · exact Or.inl (List.mem_cons_of_mem _ h)
        · simp [h]
        · simp [h]

theorem all_grouped_eq_nil (qt : List (Option (List Nat)))
    (h : ∀ x ∈ qt, x.getD [] = ([] : List Nat)) : all_grouped qt = [] := by
  induction qt with
  | nil => rfl
  | cons hd t ih =>
    simp only [all_grouped, List.map_cons, List.flatten_cons]
    rw [h hd (List.mem_cons_self _ _)]
    simpa [all_grouped] using ih fun x hx => h x (List.mem_cons_of_mem _ hx)

theorem init_quoted_all_nil (progs : List (Option Prog)) :
    all_grouped (init_quoted progs []) = [] := by
  apply all_grouped_eq_nil
  suffices hgen : ∀ qt0 : List (Option (List Nat)),
      (∀ x ∈ qt0, x.getD [] = ([] : List Nat)) →
      ∀ x ∈ init_quoted progs qt0, x.getD [] = ([] : List Nat) by
    exact hgen [] (by simp)
  induction progs with
  | nil => exact fun qt0 h => h
  | cons hd rest ih =>
    intro qt0 h x hx
    cases hd with
    | none => exact ih qt0 h x hx
    | some p =>
      refine ih (set_sparse qt0 p.id []) ?_ x hx
      intro y hy
      rcases mem_set_sparse _ _ _ _ hy with hm | hm | hm
      · exact h y hm
      · simp [hm]
      · simp [hm]

theorem mem_prog_ids (progs : List (Option Prog)) (pg : Prog)
    (hm : some pg ∈ progs) : pg.id ∈ prog_ids progs :=
  List.mem_filterMap.2 ⟨some pg, hm, by simp⟩

/-- C3: grouping partitions the defined Proc identities: a Proc with no
quote parent lands in the top-level list, a Proc whose quote parent is a
defined Prog's identity lands in that Prog's grouped list, and the
top-level list together with all grouped lists is a permutation of the full
defined-Proc identity list (so nothing is duplicated or dropped; with
distinct input identities the output is duplicate-free). -/
theorem grouping_partition (procs : List (Option Proc)) (progs : List (Option Prog))
    (scopes : List Nat)
    (hwf : ∀ pr q, some pr ∈ procs → pr.quote_parent = some q → q ∈ prog_ids progs) :
    ∃ tl qt, group_by_prog procs progs scopes = .ok (tl, qt) ∧
      (tl ++ all_grouped qt).Perm (proc_ids procs) ∧
      (∀ pr, some pr ∈ procs → pr.quote_parent = none → pr.id ∈ tl) ∧
      (∀ pr q, some pr ∈ procs → pr.quote_parent = some q →
        ∃ l, get_sparse qt q = some l ∧ pr.id ∈ l) ∧
      ((proc_ids procs).Nodup → (tl ++ all_grouped qt).Nodup) := by
  have hwf' : ∀ pr q, some pr ∈ procs → pr.quote_parent = some q →
      get_sparse (init_quoted progs []) q ≠ none := by
    intro pr q hm hq
    rw [init_quoted_get]
    simp [hwf pr q hm hq]
  obtain ⟨⟨tl, qt⟩, hok⟩ := insert_procs_ok procs [] (init_quoted progs []) hwf'
  have hperm := insert_procs_perm _ _ _ _ _ hok
  rw [init_quoted_all_nil] at hperm
  simp only [List.append_nil, List.nil_append] at hperm
  refine ⟨tl, qt, hok, hperm, ?_, ?_, fun hnd => (hperm.nodup_iff).2 hnd⟩
  · exact fun pr hm hqp => insert_procs_mem_top _ _ _ _ _ hok pr hm hqp
  · intro pr q hm hqp
    obtain ⟨l', hget, hmem⟩ := insert_procs_mem_quoted _ _ _ _ _ hok pr q hm hqp
    exact ⟨l', hget, hmem⟩

/-- A Proc outside every quotation. -/
def wproc1 : Proc := { id := 3, params := [], free := [], quote_parent := none }

/-- A Proc inside the quotation with identity 7. -/
def wproc2 : Proc := { id := 4, params := [1], free := [2], quote_parent := some 7 }

/-- The Prog those Procs refer to. -/
def wprog7 : Prog := { id := 7, annotation := "shader", quote_parent := none }

/-- A sparse Proc table with a hole. -/
def wprocs : List (Option Proc) := [none, some wproc1, some wproc2]

/-- A sparse Prog table with a hole. -/
def wprogs : List (Option Prog) := [some wprog7, none]

/-- Witness for C3 at a concrete input. -/
theorem grouping_partition_witness :
    ∃ tl qt, group_by_prog wprocs wprogs [] = .ok (tl, qt) ∧
      (tl ++ all_grouped qt).Perm (proc_ids wprocs) ∧
      (∀ pr, some pr ∈ wprocs → pr.quote_parent = none → pr.id ∈ tl) ∧
      (∀ pr q, some pr ∈ wprocs → pr.quote_parent = some q →
        ∃ l, get_sparse qt q = some l ∧ pr.id ∈ l) ∧
      ((proc_ids wprocs).Nodup → (tl ++ all_grouped qt).Nodup) := by
  refine grouping_partition wprocs wprogs [] ?_
  intro pr q hm hq
  simp only [wprocs, List.mem_cons, List.not_mem_nil, or_false] at hm
  rcases hm with hm | hm | hm
  · exact Option.noConfusion hm
  · cases Option.some_injective _ hm
    rw [show wproc1.quote_parent = none from rfl] at hq
    exact Option.noConfusion hq
  · cases Option.some_injective _ hm
    rw [show wproc2.quote_parent = some 7 from rfl] at hq
    cases Option.some_injective _ hq
    decide

/-- C10: `group_by_prog` over sparse tables: every defined Prog gets a list
in the quoted table (an empty one when no defined Proc names it), holes in
either input table contribute nothing, the function succeeds whenever every
defined Proc's non-null quote parent is a defined Prog's identity, and a
quote parent naming no defined Prog reaches the error branch. -/
theorem group_by_prog_sparse (procs : List (Option Proc)) (progs : List (Option Prog))
    (scopes : List Nat) :
    ((∀ pr q, some pr ∈ procs → pr.quote_parent = some q → q ∈ prog_ids progs) →
      ∃ tl qt, group_by_prog procs progs scopes = .ok (tl, qt) ∧
        (∀ pg, some pg ∈ progs → ∃ l, get_sparse qt pg.id = some l) ∧
        (∀ pg, some pg ∈ progs →
          (∀ pr, some pr ∈ procs → pr.quote_parent ≠ some pg.id) →
          get_sparse qt pg.id = some [])) ∧
    (∀ ps1 ps2, group_by_prog (ps1 ++ none :: ps2) progs scopes =
      group_by_prog (ps1 ++ ps2) progs scopes) ∧
    (∀ qs1 qs2, group_by_prog procs (qs1 ++ none :: qs2) scopes =
      group_by_prog procs (qs1 ++ qs2) scopes) ∧
    (∀ pr q, some pr ∈ procs → pr.quote_parent = some q → q ∉ prog_ids progs →
      ∃ msg, group_by_prog procs progs scopes = .error msg) := by
  refine ⟨?_, ?_, ?_, ?_⟩
  · intro hwf
    have hwf' : ∀ pr q, some pr ∈ procs → pr.quote_parent = some q →
        get_sparse (init_quoted progs []) q ≠ none := by
      intro pr q hm hq
      rw [init_quoted_get]
      simp [hwf pr q hm hq]
    obtain ⟨⟨tl, qt⟩, hok⟩ := insert_procs_ok procs [] (init_quoted progs []) hwf'
    have hinit : ∀ pg : Prog, some pg ∈ progs →
        get_sparse (init_quoted progs []) pg.id = some [] := by
      intro pg hm
      rw [init_quoted_get]
      simp [mem_prog_ids progs pg hm]
    refine ⟨tl, qt, hok, ?_, ?_⟩
    · intro pg hm
      obtain ⟨l', hget, _⟩ :=
        (insert_procs_mono _ _ _ _ _ hok).2 pg.id [] (hinit pg hm)
      exact ⟨l', hget⟩
    · intro pg hm hno
      rw [insert_procs_untouched _ _ _ _ _ pg.id hok hno]
      exact hinit pg hm
  · intro ps1 ps2
    unfold group_by_prog
    exact insert_procs_skip_hole ps1 ps2 [] _
  · intro qs1 qs2
    unfold group_by_prog
    rw [init_quoted_skip_hole]
  · intro pr q hm hq hnot
    have hnone : get_sparse (init_quoted progs []) q = none := by
      rw [init_quoted_get]
      simp [hnot, get_sparse]
    obtain ⟨msg, herr⟩ := insert_procs_error procs [] _ pr q hm hq hnone
    exact ⟨msg, herr⟩

/-- Witness for C10 at a concrete input (the same tables as for the
grouping partition). -/
theorem group_by_prog_sparse_witness :
    (group_by_prog (wprocs ++ none :: []) wprogs [] =
      group_by_prog (wprocs ++ []) wprogs []) ∧
    (∃ msg, group_by_prog [some wproc2] [] [] = .error msg) := by
  constructor
  · exact (group_by_prog_sparse wprocs wprogs []).2.1 wprocs []
  · refine (group_by_prog_sparse [some wproc2] [] []).2.2.2 wproc2 7 ?_ ?_ ?_
    · simp
    · rfl
    · decide

theorem get?_append_length_add {α : Type} (l₁ l₂ : List α) (j : Nat) :
    (l₁ ++ l₂).get? (l₁.length + j) = l₂.get? j := by
  simp [List.get?_eq_getElem?, List.getElem?_append_right, Nat.le_add_right,
    Nat.add_sub_cancel_left]

/-- C7 counterexample: an extern node whose explicit rename is the empty
string is recorded under its declared name, not under the given rename
(JavaScript `expansion || name` treats the empty string as absent), so the
extern table does not map the node to "its explicit rename when one was
given". -/
theorem extern_rename_empty_counterexample :
    (Except.toOption (semantically_analyze (.externRef 0 "foo" (some "")) [] [])).map
        (fun ir => get_sparse ir.externs 0) = some (some "foo") ∧
    some (some "foo") ≠ some (some ("" : String)) := by
  constructor
  · rfl
  · simp

/-- C7 (amended): the assembled extern table maps the identity of every
extern node to its declared name, or to its explicit rename when a
non-empty one was given (an empty rename falls back to the declared name);
and every intrinsic occupies the same table at the reserved identity the
assembler allocated for it (`type_table.length + j` for the j-th
intrinsic), an identity also entered into the type table before user code
is analyzed - one numbering space for both.  `extern_writes` lists, per
extern node of the tree, exactly this recorded name and the node's
identity. -/
theorem extern_table_assembly (tree : SyntaxNode) (tt : TypeTable)
    (ins : List (String × Ty)) (ir : CompilerIR)
    (hok : semantically_analyze tree tt ins = .ok ir)
    (hbound : ∀ w ∈ extern_writes tree, w.2 < tt.length)
    (hnd : ((extern_writes tree).map Prod.snd).Nodup) :
    (∀ n i, (n, i) ∈ extern_writes tree → get_sparse ir.externs i = some n) ∧
    (∀ j n ty, ins.get? j = some (n, ty) →
      get_sparse ir.externs (tt.length + j) = some n ∧
      ir.type_table.get? (tt.length + j) = some (ty, none)) := by
  have hext : ir.externs =
      add_intrinsic_externs (register_intrinsics ins tt).2 (find_externs tree []) := by
    unfold semantically_analyze at hok
    dsimp only at hok
    split at hok
    · exact Except.noConfusion hok
    · cases hok
      rfl
  have httab : ir.type_table = (register_intrinsics ins tt).1 := by
    unfold semantically_analyze at hok
    dsimp only at hok
    split at hok
    · exact Except.noConfusion hok
    · cases hok
      rfl
  have hisnd : ((register_intrinsics ins tt).2.map Prod.snd).Nodup := by
    rw [register_intrinsics_map_snd]
    exact List.nodup_range' _ _
  constructor
  · intro n i hm
    have hi : i < tt.length := hbound (n, i) hm
    have hnotin : i ∉ (register_intrinsics ins tt).2.map Prod.snd := by
      rw [register_intrinsics_map_snd]
      intro hmem
      rw [List.mem_range'] at hmem
      omega
    rw [hext, add_intrinsic_externs_get_not_mem _ _ _ hnotin,
      find_externs_as_writes, add_intrinsic_externs_get_mem _ _ _ _ hnd hm]
  · intro j n ty hj
    constructor
    · rw [hext, add_intrinsic_externs_get_mem _ _ _ _ hisnd
        (register_intrinsics_mem ins tt j n ty hj)]
    · rw [httab, register_intrinsics_table, get?_append_length_add,
        List.get?_map, hj]
      rfl

/-- Witness for C7 at a concrete input: one extern node with a non-empty
rename plus one registered intrinsic. -/
theorem extern_table_assembly_witness :
    ∃ ir, semantically_analyze (.externRef 0 "f" (some "ff")) [(0, some wenv)]
        [("print", 5)] = .ok ir ∧
      get_sparse ir.externs 0 = some "ff" ∧
      get_sparse ir.externs 1 = some "print" ∧
      ir.type_table.get? 1 = some (5, none) := by
  obtain ⟨ir, hok⟩ : ∃ ir, semantically_analyze (.externRef 0 "f" (some "ff"))
      [(0, some wenv)] [("print", 5)] = .ok ir := ⟨_, rfl⟩
  have h := extern_table_assembly (.externRef 0 "f" (some "ff")) [(0, some wenv)]
    [("print", 5)] ir hok (by decide) (by decide)
  exact ⟨ir, hok, h.1 "ff" 0 (by decide), (h.2 0 "print" 5 rfl).1,
    (h.2 0 "print" 5 rfl).2⟩
